import Mathlib

/-!
Shallow embedding of the text-overlay filter-graph generator of the
`ffmpeg-api` repository (server.js and the unnamed source parts), together
with theorems settling the frozen claims about it.

Strings manipulated character by character in the JavaScript source are
modelled as `List Char`; fully built backend expression / colour strings are
kept as `String`.  The fractional styling constants of the source
(1.1 = 11/10, 0.6 = 3/5, 0.55 = 11/20, 3.5 = 7/2) combine with integer
inputs into exact small-denominator rationals, so `Math.round` (half toward
positive infinity) and `Math.floor` on them are carried out with exact
integer arithmetic; each definition documents its scaling.  The spec's
formulas are stated over `ℚ`.
-/

namespace FfmpegApi

/-- The single-quote character, written via its code point. -/
def squote : Char := Char.ofNat 39

/-- The backslash character. -/
def bslash : Char := '\\'

/-- JavaScript's `\s` character class (whitespace as matched by `\s+` in the
source's `.replace(/\s+/g, ' ')` and trimmed by `String.prototype.trim`). -/
def isJsWs (c : Char) : Bool :=
  c == ' ' || c == '\t' || c == '\n' || c == '\r' || c == '\x0b' || c == '\x0c' ||
  c == '\u00a0' || c == '\u1680' || ('\u2000' ≤ c && c ≤ '\u200a') ||
  c == '\u2028' || c == '\u2029' || c == '\u202f' || c == '\u205f' ||
  c == '\u3000' || c == '\ufeff'

/-- `.replace(/['"]/g, '')`. -/
def stripQuotes (l : List Char) : List Char :=
  l.filter (fun c => !(c == squote || c == '"'))

/-- `.replace(/[:]/g, ' ')`. -/
def colonToSpace (l : List Char) : List Char :=
  l.map (fun c => if c = ':' then ' ' else c)

/-- `.replace(/[,]/g, ' ')`. -/
def commaToSpace (l : List Char) : List Char :=
  l.map (fun c => if c = ',' then ' ' else c)

/-- `.replace(/[\[\]]/g, '')`. -/
def stripBrackets (l : List Char) : List Char :=
  l.filter (fun c => !(c == '[' || c == ']'))

/-- `.replace(/\s+/g, ' ')`: every maximal run of whitespace becomes one
space (a whitespace character followed by more whitespace is dropped; the
last character of a run becomes the single space). -/
def collapseWs : List Char → List Char
  | [] => []
  | [c] => if isJsWs c then [' '] else [c]
  | c :: d :: cs =>
    if isJsWs c ∧ isJsWs d then collapseWs (d :: cs)
    else (if isJsWs c then ' ' else c) :: collapseWs (d :: cs)

/-- Left part of `String.prototype.trim`. -/
def trimLeft (l : List Char) : List Char := l.dropWhile isJsWs

/-- Right part of `String.prototype.trim`. -/
def trimRight (l : List Char) : List Char := (l.reverse.dropWhile isJsWs).reverse

/-- `String.prototype.trim`. -/
def trim (l : List Char) : List Char := trimRight (trimLeft l)

/-- `cleanText` from server.js (the same five-step replacement chain is
inlined in the unnamed part for channel names and for whole caption lines):
strip quotes, colons and commas to a space, strip square brackets, collapse
whitespace runs to one space, trim. -/
def cleanText (l : List Char) : List Char :=
  trim (collapseWs (stripBrackets (commaToSpace (colonToSpace (stripQuotes l)))))

/-- The per-word cleaning chain of the unnamed part's `transcriptToDrawText`
(highlighted-line branch): the same four replacements followed by `trim`,
with no whitespace-run collapse. -/
def cleanWordText (l : List Char) : List Char :=
  trim (stripBrackets (commaToSpace (colonToSpace (stripQuotes l))))

/-- JavaScript `String.prototype.split` with a single-character separator:
`"".split(sep)` is `[""]`, and separators delimit (possibly empty) fields. -/
def splitOnChar (sep : Char) : List Char → List (List Char)
  | [] => [[]]
  | c :: cs =>
    match splitOnChar sep cs with
    | [] => [[c]]
    | w :: ws => if c = sep then [] :: w :: ws else (c :: w) :: ws

/-- `Array.prototype.join(' ')` over a list of words. -/
def joinWords (ws : List (List Char)) : List Char :=
  List.intercalate [' '] ws

/-- Rendered character count of a line given its words' lengths: word lengths
summed plus one separator per gap. -/
def lineLen (lens : List Nat) : Nat := lens.sum + (lens.length - 1)

/-- A word paired with its index in the word array, as pushed by server.js's
`splitTextIntoLines` (`{ word, index }`). -/
structure WordIdx where
  word : List Char
  index : Nat
deriving DecidableEq, Repr

/-- The `words.forEach` loop of server.js's `splitTextIntoLines`, with the
accumulated `lines`, `currentLine`, `currentLength` state made explicit.
The source increments `currentLength` by `wordLength` plus a separator test
made after the push, so the increment is always `wordLength + 1`. -/
def splitLoop (maxCharsPerLine : Nat) :
    List (List Char) → Nat → List (List WordIdx) → List WordIdx → Nat →
    List (List WordIdx)
  | [], _, lines, currentLine, _ =>
    if currentLine.length > 0 then lines ++ [currentLine] else lines
  | word :: ws, index, lines, currentLine, currentLength =>
    let wordLength := word.length
    if currentLength + wordLength + (if currentLine.length > 0 then 1 else 0)
        ≤ maxCharsPerLine then
      splitLoop maxCharsPerLine ws (index + 1) lines
        (currentLine ++ [⟨word, index⟩]) (currentLength + wordLength + 1)
    else
      splitLoop maxCharsPerLine ws (index + 1)
        (if currentLine.length > 0 then lines ++ [currentLine] else lines)
        [⟨word, index⟩] wordLength

/-- server.js `splitTextIntoLines`, words-level entry point. -/
def splitWordsIntoLines (words : List (List Char)) (maxCharsPerLine : Nat) :
    List (List WordIdx) :=
  splitLoop maxCharsPerLine words 0 [] [] 0

/-- server.js `splitTextIntoLines(text, maxCharsPerLine)`: split on single
spaces, then greedily pack. -/
def splitTextIntoLines (text : List Char) (maxCharsPerLine : Nat) :
    List (List WordIdx) :=
  splitWordsIntoLines (splitOnChar ' ' text) maxCharsPerLine

/-- A word entry of the unnamed part's `transcriptToDrawText` line builder
(`{ word, globalIndex, highlight }`). -/
structure WEntry where
  word : List Char
  globalIndex : Nat
  highlight : Bool
deriving DecidableEq, Repr

/-- The highlight-index set of the unnamed part's `transcriptToDrawText`
(modelled as a list queried with `contains`, matching the source's `Set` and
`has`): last two word indices for the first transcript when at least two
words exist, the first word index for the second transcript when at least
one word exists, empty otherwise. -/
def highlightIndices (isFirstTranscript : Bool) (wordCount : Nat) : List Nat :=
  if isFirstTranscript ∧ 2 ≤ wordCount then [wordCount - 2, wordCount - 1]
  else if ¬isFirstTranscript ∧ 1 ≤ wordCount then [0]
  else []

/-- The `words.forEach` line builder of the unnamed part's
`transcriptToDrawText`, with `lines`, `currentLine`, `currentCharCount`,
`globalWordIndex` state explicit. -/
def buildLoop (maxCharsPerLine : Nat) (hs : List Nat) :
    List (List Char) → List (List WEntry) → List WEntry → Nat → Nat →
    List (List WEntry)
  | [], lines, currentLine, _, _ =>
    if currentLine.length > 0 then lines ++ [currentLine] else lines
  | word :: ws, lines, currentLine, currentCharCount, globalWordIndex =>
    let wordLength := word.length
    let potentialLength :=
      currentCharCount + (if currentLine.length > 0 then 1 else 0) + wordLength
    if potentialLength ≤ maxCharsPerLine then
      buildLoop maxCharsPerLine hs ws lines
        (currentLine ++ [⟨word, globalWordIndex, hs.contains globalWordIndex⟩])
        potentialLength (globalWordIndex + 1)
    else
      buildLoop maxCharsPerLine hs ws
        (if currentLine.length > 0 then lines ++ [currentLine] else lines)
        [⟨word, globalWordIndex, hs.contains globalWordIndex⟩]
        wordLength (globalWordIndex + 1)

/-- Line building of the unnamed part's `transcriptToDrawText`, from the
word list. -/
def buildLines (words : List (List Char)) (hs : List Nat)
    (maxCharsPerLine : Nat) : List (List WEntry) :=
  buildLoop maxCharsPerLine hs words [] [] 0 0

/-- One backend `drawtext` command: the fields interpolated by the source's
command templates.  `text` is the cleaned/escaped text placed between the
quotes of `text='…'`; `enable` is the optional time-window expression placed
in `enable='…'`. -/
structure DrawCmd where
  text : List Char
  fontsize : Nat
  fontcolor : String
  x : String
  y : String
  fontfile : String
  borderw : Nat
  bordercolor : String
  enable : Option String
deriving DecidableEq, Repr

/-- JavaScript `Math.round` (round half toward positive infinity) over an
exact rational, for spec-side statements. -/
def jsRound (q : ℚ) : ℤ := ⌊q + 1/2⌋

/-- JavaScript `Math.round` applied to `m/20`: `⌊m/20 + 1/2⌋ = (m+10)/20`
with floor division (`/` on `ℤ` floors for a positive divisor). -/
def jsRound20 (m : ℤ) : ℤ := (m + 10) / 20

/-- server.js `createGlowEffects` escaping: `.replace(/[\\':]/g, '\\$&')`,
prefixing a backslash to each backslash, single quote, or colon. -/
def escapeSpecial : List Char → List Char
  | [] => []
  | c :: cs =>
    if c = bslash ∨ c = squote ∨ c = ':' then bslash :: c :: escapeSpecial cs
    else c :: escapeSpecial cs

/-- server.js `createGlowEffects(text, x, y, fontSize, color, fontFile,
enableExpr)`: the four stacked glow commands (outer glow, medium glow, inner
glow, main text).  All four share the escaped text, font file, font size,
position, and enable window; only colour, border width, and border colour
vary, and the final command uses the caller's colour. -/
def createGlowEffects (text : List Char) (x y : String) (fontSize : Nat)
    (color fontFile : String) (enableExpr : Option String) : List DrawCmd :=
  let escapedText := escapeSpecial text
  [ ⟨escapedText, fontSize, "white@0.08", x, y, fontFile, 20, "white@0.05", enableExpr⟩,
    ⟨escapedText, fontSize, "white@0.15", x, y, fontFile, 12, "white@0.1", enableExpr⟩,
    ⟨escapedText, fontSize, "white@0.3", x, y, fontFile, 6, "white@0.2", enableExpr⟩,
    ⟨escapedText, fontSize, color, x, y, fontFile, 2, "white@0.4", enableExpr⟩ ]

/-- Decimal rendering of the nonnegative half-integer `m/2`, matching
JavaScript number-to-string interpolation on the values
`lineIndex * (fontSize * 3.5)` (which are nonnegative multiples of 1/2). -/
def halfString (m : ℤ) : String :=
  if m % 2 = 0 then toString (m / 2) else toString (m / 2) ++ ".5"

/-- The `lineY` template of server.js `createHighlightedText`:
`` `(h/2)${baseY}+${lineIndex * lineHeight}` `` with
`lineHeight = fontSize * TEXT_CONFIG.lineHeightMultiplier` (3.5) and `baseY`
the configured per-block vertical offset (first: -400, second: 100);
`lineIndex * lineHeight = 7 * lineIndex * fontSize / 2` exactly. -/
def serverLineY (isFirstTranscript : Bool) (fontSize lineIndex : Nat) : String :=
  let baseY : ℤ := if isFirstTranscript then -400 else 100
  "(h/2)" ++ toString baseY ++ "+" ++
    halfString (7 * (lineIndex : ℤ) * (fontSize : ℤ))

/-- server.js `createHighlightedText(lines, isFirstTranscript, fontSize,
fontFile, yOffset, enableExpr)`: one glow stack per line, the whole last
line (first transcript) or first line (second transcript) coloured with
`TEXT_CONFIG.highlightColor`, the rest with `TEXT_CONFIG.fontColor`.  The
source's `yOffset` parameter is unused there and omitted here; the config
colour constants are inlined. -/
def createHighlightedText (lines : List (List WordIdx))
    (isFirstTranscript : Bool) (fontSize : Nat) (fontFile : String)
    (enableExpr : Option String) : List DrawCmd :=
  ((lines.enum).map (fun p =>
    let lineIndex := p.1
    let line := p.2
    let lineY := serverLineY isFirstTranscript fontSize lineIndex
    let lineText := joinWords (line.map WordIdx.word)
    let isHighlightedLine :=
      if isFirstTranscript then lineIndex = lines.length - 1 else lineIndex = 0
    let color := if isHighlightedLine then "#98FBCB" else "white"
    createGlowEffects lineText "(w-text_w)/2" lineY fontSize color fontFile
      enableExpr)).flatten

/-- The repeated four-layer command template of the unnamed part's
`transcriptToDrawText` (border widths 20/12/6/2): glow colour at rising
opacity on the first three layers, the main colour on the fourth. -/
def transcriptQuad (text : List Char) (fontSize : Nat)
    (x y fontFile glowColor mainColor enableExpr : String) : List DrawCmd :=
  [ ⟨text, fontSize, glowColor ++ "@0.08", x, y, fontFile, 20, glowColor ++ "@0.05", some enableExpr⟩,
    ⟨text, fontSize, glowColor ++ "@0.15", x, y, fontFile, 12, glowColor ++ "@0.1", some enableExpr⟩,
    ⟨text, fontSize, glowColor ++ "@0.3", x, y, fontFile, 6, glowColor ++ "@0.2", some enableExpr⟩,
    ⟨text, fontSize, mainColor, x, y, fontFile, 2, glowColor ++ "@0.4", some enableExpr⟩ ]

/-- The per-line `yOffset` of the unnamed part's `transcriptToDrawText`:
`Math.round((lineIndex * lineHeight) - (totalHeight / 2)) + textVerticalOffset`
with `lineHeight = fontSize * 1.1`,
`totalHeight = lines.length * fontSize * 1.1`, and
`textVerticalOffset = -500`; the rounded quantity is
`(22 * lineIndex * fontSize - 11 * lineCount * fontSize) / 20` exactly. -/
def lineYOffset (fontSize lineCount lineIndex : Nat) : ℤ :=
  jsRound20 (22 * (lineIndex : ℤ) * (fontSize : ℤ)
    - 11 * (lineCount : ℤ) * (fontSize : ℤ)) + (-500)

/-- The `y` template of the unnamed part's `transcriptToDrawText`:
`(h/2)+${yOffset}` when nonnegative, `(h/2)${yOffset}` when negative. -/
def yString (yOffset : ℤ) : String :=
  if 0 ≤ yOffset then "(h/2)+" ++ toString yOffset else "(h/2)" ++ toString yOffset

/-- The highlighted-line branch of the unnamed part's `transcriptToDrawText`:
each word with a nonempty cleaned text becomes its own four-layer stack,
offset horizontally by the estimated width (`fontSize * 0.55` per character)
of the words before it in the line. -/
def transcriptWordCmds (fontSize : Nat)
    (y fontFile fontColor highlightColor enableExpr : String)
    (line : List WEntry) : List DrawCmd :=
  let fullLineText := joinWords (line.map WEntry.word)
  ((line.enum).map (fun p =>
    let wordIndexInLine := p.1
    let wordObj := p.2
    let cleanWord := cleanWordText wordObj.word
    if cleanWord ≠ [] then
      let textBeforeWord := joinWords ((line.take wordIndexInLine).map WEntry.word)
      let spacesBeforeWord :=
        if textBeforeWord.length > 0 then textBeforeWord.length + 1 else 0
      -- `charWidth = fontSize * 0.55`, so `spacesBeforeWord * charWidth`
      -- is `11 * spacesBeforeWord * fontSize / 20` exactly
      let pixelOffset := jsRound20 (11 * (spacesBeforeWord : ℤ) * (fontSize : ℤ))
      let fullLineWidth := jsRound20 (11 * (fullLineText.length : ℤ) * (fontSize : ℤ))
      let lineStartX := "(w-" ++ toString fullLineWidth ++ ")/2"
      let xPos :=
        if 0 < pixelOffset then lineStartX ++ "+" ++ toString pixelOffset
        else lineStartX
      let color := if wordObj.highlight then highlightColor else fontColor
      let glowColor := if wordObj.highlight then highlightColor else "white"
      transcriptQuad cleanWord fontSize xPos y fontFile glowColor color enableExpr
    else [])).flatten

/-- One line of the unnamed part's `transcriptToDrawText`: the whole-line
stack when no word of the line is highlighted, else per-word stacks. -/
def transcriptLineBlock (fontSize lineCount : Nat)
    (fontColor highlightColor fontFile enableExpr : String)
    (p : Nat × List WEntry) : List DrawCmd :=
  let lineIndex := p.1
  let line := p.2
  let y := yString (lineYOffset fontSize lineCount lineIndex)
  if line.any WEntry.highlight then
    transcriptWordCmds fontSize y fontFile fontColor highlightColor enableExpr line
  else
    transcriptQuad (cleanText (joinWords (line.map WEntry.word))) fontSize
      "(w-tw)/2" y fontFile "white" fontColor enableExpr

/-- The unnamed part's `transcriptToDrawText(transcript, enableExpr,
isFirstTranscript, fontSize, fontColor, highlightColor, fontFile)`.  A
missing or empty transcript (JavaScript falsy) and a transcript with no
nonempty space-separated word both yield no commands; the function is total
and never fails.  `maxCharsPerLine = Math.floor(1080 / (fontSize * 0.6))`, which equals
`⌊1800 / fontSize⌋` exactly (for `fontSize = 0` JavaScript would give
Infinity; the model gives 0, a corner no claim depends on). -/
def transcriptToDrawText (transcript : Option (List Char)) (enableExpr : String)
    (isFirstTranscript : Bool) (fontSize : Nat)
    (fontColor highlightColor fontFile : String) : List DrawCmd :=
  match transcript with
  | none => []
  | some t =>
    if t = [] then []
    else
      let maxCharsPerLine := 1800 / fontSize
      let cleanTranscript := trim t
      let words := (splitOnChar ' ' cleanTranscript).filter (fun w => w.length > 0)
      if words.length = 0 then []
      else
        let hs := highlightIndices isFirstTranscript words.length
        let lines := buildLines words hs maxCharsPerLine
        ((lines.enum).map
          (transcriptLineBlock fontSize lines.length fontColor highlightColor
            fontFile enableExpr)).flatten

/-- The unnamed part's `createChannelNameDrawText(channelName, fontFile,
fontColor)`: the watermark's four-layer stack (border widths 10/6/3/1),
font size 40, `y = (h/2)+400`, and no enable window. -/
def createChannelNameDrawText (channelName : List Char)
    (fontFile fontColor : String) : List DrawCmd :=
  let cleanChannelName := cleanText channelName
  [ ⟨cleanChannelName, 40, "white@0.08", "(w-tw)/2", "(h/2)+400", fontFile, 10, "white@0.05", none⟩,
    ⟨cleanChannelName, 40, "white@0.15", "(w-tw)/2", "(h/2)+400", fontFile, 6, "white@0.1", none⟩,
    ⟨cleanChannelName, 40, "white@0.3", "(w-tw)/2", "(h/2)+400", fontFile, 3, "white@0.2", none⟩,
    ⟨cleanChannelName, 40, fontColor, "(w-tw)/2", "(h/2)+400", fontFile, 1, "white@0.4", none⟩ ]

/-- The command sequence assembled by the unnamed part's `/process-video`
endpoint: first transcript (window `lt(t,7.5)`), second transcript (window
`gte(t,8.5)`), then the channel watermark.  The source's
`[d1, d2, ch].filter(Boolean).join(',')` on command strings corresponds to
concatenating the three command lists (an empty string is an empty list). -/
def processVideoCmds (transcript1 transcript2 : Option (List Char))
    (channelName : List Char) (fontSize : Nat)
    (fontColor highlightColor fontFile : String) : List DrawCmd :=
  transcriptToDrawText transcript1 "lt(t,7.5)" true fontSize fontColor
      highlightColor fontFile ++
    transcriptToDrawText transcript2 "gte(t,8.5)" false fontSize fontColor
      highlightColor fontFile ++
    createChannelNameDrawText channelName fontFile fontColor

/-- The single-quote character as a one-character string. -/
def sq : String := String.singleton squote

/-- Serialization of one command in the unnamed part's template field order:
text, fontsize, fontcolor, x, y, fontfile, borderw, bordercolor, and the
optional enable window last. -/
def renderCmd (c : DrawCmd) : String :=
  "drawtext=text=" ++ sq ++ String.mk c.text ++ sq ++
  ":fontsize=" ++ toString c.fontsize ++
  ":fontcolor=" ++ c.fontcolor ++
  ":x=" ++ c.x ++ ":y=" ++ c.y ++
  ":fontfile=" ++ sq ++ c.fontfile ++ sq ++
  ":borderw=" ++ toString c.borderw ++
  ":bordercolor=" ++ c.bordercolor ++
  (match c.enable with
   | some e => ":enable=" ++ sq ++ e ++ sq
   | none => "")

/-- `drawTextCommands.join(',')`. -/
def joinCmds (cmds : List DrawCmd) : String :=
  String.intercalate "," (cmds.map renderCmd)

/-- The full drawtext filter string built by `/process-video`:
`[drawText1, drawText2, channelDrawText].filter(Boolean).join(',')`
(the empty string when all three are empty). -/
def processVideoFilterString (transcript1 transcript2 : Option (List Char))
    (channelName : List Char) (fontSize : Nat)
    (fontColor highlightColor fontFile : String) : String :=
  let drawText1 := joinCmds (transcriptToDrawText transcript1 "lt(t,7.5)" true
    fontSize fontColor highlightColor fontFile)
  let drawText2 := joinCmds (transcriptToDrawText transcript2 "gte(t,8.5)" false
    fontSize fontColor highlightColor fontFile)
  let channelDrawText := joinCmds (createChannelNameDrawText channelName
    fontFile fontColor)
  String.intercalate ","
    (List.filter (fun s => s ≠ "") [drawText1, drawText2, channelDrawText])

/-- Modelled from the spec: the layout contract of §4.4 — line `i`'s
vertical center offset from frame-middle is
`baseVerticalOffset + i × lineHeight − totalHeight/2` with
`lineHeight = fontSize × mult` and `totalHeight = lineCount × lineHeight`.
Stated from the spec's words, to be compared with the code's formulas. -/
def specLineCenterOffset (mult base : ℚ) (fontSize lineCount lineIndex : Nat) : ℚ :=
  base + (lineIndex : ℚ) * ((fontSize : ℚ) * mult)
    - ((lineCount : ℚ) * ((fontSize : ℚ) * mult)) / 2

/-! ### Helper lemmas about the sanitizer building blocks -/

theorem mem_of_mem_dropWhile {p : Char → Bool} {l : List Char} {a : Char}
    (h : a ∈ l.dropWhile p) : a ∈ l :=
  (List.dropWhile_suffix p).sublist.subset h

theorem head?_dropWhile_false {p : Char → Bool} {l : List Char} {a : Char}
    (h : (l.dropWhile p).head? = some a) : p a = false := by
  induction l with
  | nil => simp [List.dropWhile] at h
  | cons b t ih =>
    rw [List.dropWhile_cons] at h
    split at h
    · exact ih h
    · simp_all

theorem mem_dropWhile_of_mem {p : Char → Bool} {l : List Char} {a : Char}
    (hp : p a = false) (h : a ∈ l) : a ∈ l.dropWhile p := by
  induction l with
  | nil => simp at h
  | cons b t ih =>
    rw [List.dropWhile_cons]
    split
    · rcases List.mem_cons.1 h with rfl | h'
      · simp_all
      · exact ih h'
    · exact h

theorem dropWhile_eq_nil_of_all {p : Char → Bool} {l : List Char}
    (h : ∀ a ∈ l, p a = true) : l.dropWhile p = [] := by
  rw [List.dropWhile_eq_nil_iff]
  intro a ha
  exact h a ha

theorem chain'_dropWhile {R : Char → Char → Prop} {p : Char → Bool}
    {l : List Char} (h : List.Chain' R l) : List.Chain' R (l.dropWhile p) := by
  induction l with
  | nil => simp
  | cons b t ih =>
    rw [List.dropWhile_cons]
    split
    · exact ih h.tail
    · exact h

theorem collapseWs_mem {c : Char} : ∀ {l : List Char}, c ∈ collapseWs l →
    c = ' ' ∨ (c ∈ l ∧ isJsWs c = false) := by
  intro l
  induction l with
  | nil => intro h; simp [collapseWs] at h
  | cons a cs ih =>
    intro h
    cases cs with
    | nil =>
      by_cases ha : isJsWs a = true
      · simp [collapseWs, ha] at h
        exact Or.inl h
      · simp [collapseWs, ha] at h
        exact Or.inr ⟨by simp [h], by subst h; simpa using ha⟩
    | cons d cs' =>
      by_cases hboth : isJsWs a = true ∧ isJsWs d = true
      · rw [show collapseWs (a :: d :: cs') =
            if isJsWs a ∧ isJsWs d then collapseWs (d :: cs')
            else (if isJsWs a then ' ' else a) :: collapseWs (d :: cs') from rfl,
          if_pos (by simp [hboth.1, hboth.2])] at h
        rcases ih h with rfl | ⟨hmem, hcws⟩
        · exact Or.inl rfl
        · exact Or.inr ⟨List.mem_cons_of_mem _ hmem, hcws⟩
      · rw [show collapseWs (a :: d :: cs') =
            if isJsWs a ∧ isJsWs d then collapseWs (d :: cs')
            else (if isJsWs a then ' ' else a) :: collapseWs (d :: cs') from rfl,
          if_neg (by simpa using hboth)] at h
        rcases List.mem_cons.1 h with h' | h'
        · by_cases ha : isJsWs a = true
          · rw [if_pos ha] at h'
            exact Or.inl h'
          · rw [if_neg ha] at h'
            exact Or.inr ⟨by simp [h'], by subst h'; simpa using ha⟩
        · rcases ih h' with rfl | ⟨hmem, hcws⟩
          · exact Or.inl rfl
          · exact Or.inr ⟨List.mem_cons_of_mem _ hmem, hcws⟩

theorem mem_collapseWs_of_not_ws {c : Char} (hc : isJsWs c = false) :
    ∀ {l : List Char}, c ∈ l → c ∈ collapseWs l := by
  intro l
  induction l with
  | nil => intro h; simp at h
  | cons a cs ih =>
    intro h
    cases cs with
    | nil =>
      rcases List.mem_cons.1 h with rfl | h'
      · simp [collapseWs, hc]
      · simp at h'
    | cons d cs' =>
      rw [show collapseWs (a :: d :: cs') =
          if isJsWs a ∧ isJsWs d then collapseWs (d :: cs')
          else (if isJsWs a then ' ' else a) :: collapseWs (d :: cs') from rfl]
      rcases List.mem_cons.1 h with rfl | h'
      · rw [if_neg (by simp [hc]), if_neg (by simp [hc])]
        exact List.mem_cons_self _ _
      · split
        · exact ih h'
        · exact List.mem_cons_of_mem _ (ih h')

theorem collapseWs_head?_of_not_ws {d : Char} {cs : List Char}
    (hd : isJsWs d = false) : (collapseWs (d :: cs)).head? = some d := by
  cases cs with
  | nil => simp [collapseWs, hd]
  | cons d2 cs2 =>
    rw [show collapseWs (d :: d2 :: cs2) =
        if isJsWs d ∧ isJsWs d2 then collapseWs (d2 :: cs2)
        else (if isJsWs d then ' ' else d) :: collapseWs (d2 :: cs2) from rfl,
      if_neg (by simp [hd]), if_neg (by simp [hd])]
    rfl

theorem chain'_collapseWs : ∀ (l : List Char),
    List.Chain' (fun a b => isJsWs a = false ∨ isJsWs b = false)
      (collapseWs l) := by
  intro l
  induction l with
  | nil => simp [collapseWs]
  | cons a cs ih =>
    cases cs with
    | nil =>
      by_cases ha : isJsWs a = true <;> simp [collapseWs, ha]
    | cons d cs' =>
      rw [show collapseWs (a :: d :: cs') =
          if isJsWs a ∧ isJsWs d then collapseWs (d :: cs')
          else (if isJsWs a then ' ' else a) :: collapseWs (d :: cs') from rfl]
      split
      · exact ih
      · rename_i hneg
        by_cases ha : isJsWs a = true
        · have hd : isJsWs d = false := by
            rcases Bool.eq_false_or_eq_true (isJsWs d) with h | h
            · exact absurd ⟨by simp [ha], by simp [h]⟩ hneg
            · exact h
          rw [if_pos ha]
          refine List.chain'_cons'.2 ⟨?_, ih⟩
          intro y hy
          rw [collapseWs_head?_of_not_ws hd] at hy
          cases hy
          exact Or.inr hd
        · rw [if_neg ha]
          exact List.chain'_cons'.2
            ⟨fun y _ => Or.inl (by simpa using ha), ih⟩

theorem mem_trim {c : Char} {l : List Char} (h : c ∈ trim l) : c ∈ l := by
  unfold trim trimRight trimLeft at h
  rw [List.mem_reverse] at h
  have h1 := mem_of_mem_dropWhile h
  rw [List.mem_reverse] at h1
  exact mem_of_mem_dropWhile h1

theorem chain'_reverse_of_symm {R : Char → Char → Prop}
    (hsym : ∀ a b, R a b → R b a) {l : List Char} (h : List.Chain' R l) :
    List.Chain' R l.reverse := by
  rw [List.chain'_reverse]
  exact List.Chain'.imp (fun a b hab => hsym a b hab) h

theorem chain'_trim {R : Char → Char → Prop} (hsym : ∀ a b, R a b → R b a)
    {l : List Char} (h : List.Chain' R l) : List.Chain' R (trim l) := by
  unfold trim trimRight trimLeft
  exact chain'_reverse_of_symm hsym
    (chain'_dropWhile (chain'_reverse_of_symm hsym (chain'_dropWhile h)))

theorem trim_head?_not_ws {l : List Char} {c : Char}
    (h : (trim l).head? = some c) : isJsWs c = false := by
  unfold trim trimRight at h
  obtain ⟨t, ht⟩ := List.dropWhile_suffix (l := (trimLeft l).reverse) isJsWs
  have hsplit : trimLeft l =
      ((trimLeft l).reverse.dropWhile isJsWs).reverse ++ t.reverse := by
    conv_lhs => rw [← List.reverse_reverse (trimLeft l), ← ht]
    rw [List.reverse_append]
  have hm : (trimLeft l).head? = some c := by
    rw [hsplit]
    cases hrev : ((trimLeft l).reverse.dropWhile isJsWs).reverse with
    | nil => rw [hrev] at h; simp at h
    | cons a s =>
      rw [hrev] at h
      simp only [List.head?_cons, Option.some.injEq] at h
      subst h
      simp
  exact head?_dropWhile_false (p := isJsWs) (l := l) hm

theorem trim_getLast?_not_ws {l : List Char} {c : Char}
    (h : (trim l).getLast? = some c) : isJsWs c = false := by
  unfold trim trimRight at h
  rw [List.getLast?_reverse] at h
  exact head?_dropWhile_false h

theorem trim_eq_nil_of_all_ws {l : List Char}
    (h : ∀ c ∈ l, isJsWs c = true) : trim l = [] := by
  unfold trim trimLeft trimRight
  rw [dropWhile_eq_nil_of_all h]
  simp

theorem mem_cleanPre {c : Char} {l : List Char}
    (h : c ∈ stripBrackets (commaToSpace (colonToSpace (stripQuotes l)))) :
    c ≠ squote ∧ c ≠ '"' ∧ c ≠ ':' ∧ c ≠ ',' ∧ c ≠ '[' ∧ c ≠ ']' := by
  unfold stripBrackets at h
  rw [List.mem_filter] at h
  obtain ⟨h1, hbr⟩ := h
  unfold commaToSpace at h1
  rw [List.mem_map] at h1
  obtain ⟨a, ha, hac⟩ := h1
  unfold colonToSpace at ha
  rw [List.mem_map] at ha
  obtain ⟨b, hb, hba⟩ := ha
  unfold stripQuotes at hb
  rw [List.mem_filter] at hb
  obtain ⟨_, hq⟩ := hb
  subst hac hba
  constructor
  · split <;> split <;> simp_all [squote]
  constructor
  · split <;> split <;> simp_all
  constructor
  · split <;> split <;> simp_all
  constructor
  · split <;> split <;> simp_all
  constructor
  · intro hcontra; rw [hcontra] at hbr; simp at hbr
  · intro hcontra; rw [hcontra] at hbr; simp at hbr

/-- C1: for every input string, the sanitizer `cleanText` produces output
with none of the characters `'`, `"`, `:`, `,`, `[`, `]`, with no two
consecutive spaces, and with no leading or trailing whitespace. -/
theorem cleanText_sanitized (s : List Char) :
    (∀ c ∈ cleanText s,
      c ≠ squote ∧ c ≠ '"' ∧ c ≠ ':' ∧ c ≠ ',' ∧ c ≠ '[' ∧ c ≠ ']') ∧
    List.Chain' (fun a b => ¬(a = ' ' ∧ b = ' ')) (cleanText s) ∧
    (∀ c, (cleanText s).head? = some c → isJsWs c = false) ∧
    (∀ c, (cleanText s).getLast? = some c → isJsWs c = false) := by
  refine ⟨?_, ?_, ?_, ?_⟩
  · intro c hc
    have hm := mem_trim hc
    rcases collapseWs_mem hm with rfl | ⟨hmem, _⟩
    · refine ⟨?_, ?_, ?_, ?_, ?_, ?_⟩ <;> decide
    · exact mem_cleanPre hmem
  · have hch := chain'_collapseWs
      (stripBrackets (commaToSpace (colonToSpace (stripQuotes s))))
    have := chain'_trim (R := fun a b => isJsWs a = false ∨ isJsWs b = false)
      (fun a b hab => hab.symm) hch
    refine List.Chain'.imp ?_ this
    rintro a b hab ⟨rfl, rfl⟩
    rcases hab with hab | hab <;> simp [isJsWs] at hab
  · intro c hc
    exact trim_head?_not_ws hc
  · intro c hc
    exact trim_getLast?_not_ws hc

/-- Concrete instance of `cleanText_sanitized` at the input `" :a"`. -/
theorem cleanText_sanitized_witness : isJsWs 'a' = false :=
  (cleanText_sanitized [' ', ':', 'a']).2.2.1 'a' (by decide)

/-! ### Helper lemmas about the two greedy line-wrapping loops -/

theorem lineLen_append_single (lens : List Nat) (a : Nat) :
    lineLen (lens ++ [a]) =
      lineLen lens + a + (if lens = [] then 0 else 1) := by
  cases lens with
  | nil => simp [lineLen]
  | cons x t => simp [lineLen, List.sum_append]; omega

theorem lineLen_singleton (a : Nat) : lineLen [a] = a := by
  simp [lineLen]

theorem splitLoop_lines_bounded (maxC : Nat) :
    ∀ (ws : List (List Char)) (idx : Nat) (lines : List (List WordIdx))
      (cur : List WordIdx) (len : Nat),
      (∀ l ∈ lines, lineLen (l.map fun e => e.word.length) ≤ maxC ∨
        ∃ e, l = [e] ∧ maxC < e.word.length) →
      (cur ≠ [] → lineLen (cur.map fun e => e.word.length) ≤ maxC ∨
        ∃ e, cur = [e] ∧ maxC < e.word.length) →
      lineLen (cur.map fun e => e.word.length) ≤ len →
      ∀ l ∈ splitLoop maxC ws idx lines cur len,
        lineLen (l.map fun e => e.word.length) ≤ maxC ∨
        ∃ e, l = [e] ∧ maxC < e.word.length := by
  intro ws
  induction ws with
  | nil =>
    intro idx lines cur len hlines hcur _ l hl
    simp only [splitLoop] at hl
    split at hl
    · rename_i hlen0
      rcases List.mem_append.1 hl with h | h
      · exact hlines l h
      · rw [List.mem_singleton] at h
        subst h
        refine hcur ?_
        intro hnil
        rw [hnil] at hlen0
        simp at hlen0
    · exact hlines l hl
  | cons w ws ih =>
    intro idx lines cur len hlines hcur hlen l hl
    simp only [splitLoop] at hl
    split at hl
    · rename_i hcl
      have hne : cur ≠ [] := by
        intro hnil; rw [hnil] at hcl; simp at hcl
      have hcurlen : lineLen ((cur ++ [(⟨w, idx⟩ : WordIdx)]).map
          fun e => e.word.length) = lineLen (cur.map fun e => e.word.length)
          + w.length + 1 := by
        rw [List.map_append]
        simp only [List.map_cons, List.map_nil]
        rw [lineLen_append_single]
        simp [hne, List.map_eq_nil_iff]
      split at hl
      · rename_i hle
        refine ih (idx + 1) lines (cur ++ [⟨w, idx⟩]) (len + w.length + 1)
          hlines ?_ ?_ l hl
        · intro _
          left
          rw [hcurlen]
          omega
        · rw [hcurlen]
          omega
      · refine ih (idx + 1) (lines ++ [cur]) [⟨w, idx⟩] w.length ?_ ?_ ?_ l hl
        · intro l' hl'
          rcases List.mem_append.1 hl' with h | h
          · exact hlines l' h
          · rw [List.mem_singleton] at h
            subst h
            exact hcur hne
        · intro _
          rcases le_or_lt w.length maxC with h | h
          · left; simpa [lineLen_singleton] using h
          · right; exact ⟨⟨w, idx⟩, rfl, h⟩
        · simp [lineLen_singleton]
    · have hnil : cur = [] := by
        rename_i hcl
        rcases cur with _ | ⟨a, t⟩
        · rfl
        · simp at hcl
      subst hnil
      split at hl
      · rename_i hle
        refine ih (idx + 1) lines [⟨w, idx⟩] (len + w.length + 1)
          hlines ?_ ?_ l (by simpa using hl)
        · intro _
          left
          simp only [List.nil_append, List.map_cons, List.map_nil,
            lineLen_singleton]
          omega
        · simp only [List.nil_append, List.map_cons, List.map_nil,
            lineLen_singleton]
          omega
      · refine ih (idx + 1) lines [⟨w, idx⟩] w.length hlines ?_ ?_ l hl
        · intro _
          rcases le_or_lt w.length maxC with h | h
          · left; simpa [lineLen_singleton] using h
          · right; exact ⟨⟨w, idx⟩, rfl, h⟩
        · simp [lineLen_singleton]

theorem buildLoop_lines_bounded (maxC : Nat) (hs : List Nat) :
    ∀ (ws : List (List Char)) (lines : List (List WEntry))
      (cur : List WEntry) (cnt gIdx : Nat),
      (∀ l ∈ lines, lineLen (l.map fun e => e.word.length) ≤ maxC ∨
        ∃ e, l = [e] ∧ maxC < e.word.length) →
      (cur ≠ [] → lineLen (cur.map fun e => e.word.length) ≤ maxC ∨
        ∃ e, cur = [e] ∧ maxC < e.word.length) →
      lineLen (cur.map fun e => e.word.length) ≤ cnt →
      ∀ l ∈ buildLoop maxC hs ws lines cur cnt gIdx,
        lineLen (l.map fun e => e.word.length) ≤ maxC ∨
        ∃ e, l = [e] ∧ maxC < e.word.length := by
  intro ws
  induction ws with
  | nil =>
    intro lines cur cnt gIdx hlines hcur _ l hl
    simp only [buildLoop] at hl
    split at hl
    · rename_i hlen0
      rcases List.mem_append.1 hl with h | h
      · exact hlines l h
      · rw [List.mem_singleton] at h
        subst h
        refine hcur ?_
        intro hnil
        rw [hnil] at hlen0
        simp at hlen0
    · exact hlines l hl
  | cons w ws ih =>
    intro lines cur cnt gIdx hlines hcur hcnt l hl
    simp only [buildLoop] at hl
    split at hl
    · rename_i hcl
      have hne : cur ≠ [] := by
        intro hnil; rw [hnil] at hcl; simp at hcl
      have hcurlen : lineLen ((cur ++
          [(⟨w, gIdx, hs.contains gIdx⟩ : WEntry)]).map
          fun e => e.word.length) = lineLen (cur.map fun e => e.word.length)
          + w.length + 1 := by
        rw [List.map_append]
        simp only [List.map_cons, List.map_nil]
        rw [lineLen_append_single]
        simp [hne, List.map_eq_nil_iff]
      split at hl
      · rename_i hle
        refine ih lines (cur ++ [⟨w, gIdx, hs.contains gIdx⟩])
          (cnt + 1 + w.length) (gIdx + 1) hlines ?_ ?_ l hl
        · intro _
          left
          rw [hcurlen]
          omega
        · rw [hcurlen]
          omega
      · refine ih (lines ++ [cur]) [⟨w, gIdx, hs.contains gIdx⟩] w.length
          (gIdx + 1) ?_ ?_ ?_ l hl
        · intro l' hl'
          rcases List.mem_append.1 hl' with h | h
          · exact hlines l' h
          · rw [List.mem_singleton] at h
            subst h
            exact hcur hne
        · intro _
          rcases le_or_lt w.length maxC with h | h
          · left; simpa [lineLen_singleton] using h
          · right; exact ⟨⟨w, gIdx, hs.contains gIdx⟩, rfl, h⟩
        · simp [lineLen_singleton]
    · have hnil : cur = [] := by
        rename_i hcl
        rcases cur with _ | ⟨a, t⟩
        · rfl
        · simp at hcl
      subst hnil
      split at hl
      · rename_i hle
        refine ih lines [⟨w, gIdx, hs.contains gIdx⟩] (cnt + 0 + w.length)
          (gIdx + 1) hlines ?_ ?_ l (by simpa using hl)
        · intro _
          left
          simp only [List.nil_append, List.map_cons, List.map_nil,
            lineLen_singleton]
          omega
        · simp only [List.nil_append, List.map_cons, List.map_nil,
            lineLen_singleton]
          omega
      · refine ih lines [⟨w, gIdx, hs.contains gIdx⟩] w.length (gIdx + 1)
          hlines ?_ ?_ l hl
        · intro _
          rcases le_or_lt w.length maxC with h | h
          · left; simpa [lineLen_singleton] using h
          · right; exact ⟨⟨w, gIdx, hs.contains gIdx⟩, rfl, h⟩
        · simp [lineLen_singleton]

/-- C2: both greedy wrapping loops (server.js `splitTextIntoLines` and the
unnamed part's line builder) produce only lines whose rendered character
count (word lengths summed plus one separator per gap) is at most
`maxCharsPerLine`, except a line made of exactly one word that is itself
longer than the budget; such a word still forms its own (unsplit) line. -/
theorem wrap_lines_within_budget (words : List (List Char)) (hs : List Nat)
    (maxCharsPerLine : Nat) (_hpos : 0 < maxCharsPerLine) :
    (∀ l ∈ splitWordsIntoLines words maxCharsPerLine,
      lineLen (l.map fun e => e.word.length) ≤ maxCharsPerLine ∨
      ∃ e, l = [e] ∧ maxCharsPerLine < e.word.length) ∧
    (∀ l ∈ buildLines words hs maxCharsPerLine,
      lineLen (l.map fun e => e.word.length) ≤ maxCharsPerLine ∨
      ∃ e, l = [e] ∧ maxCharsPerLine < e.word.length) := by
  constructor
  · exact splitLoop_lines_bounded maxCharsPerLine words 0 [] [] 0
      (by intro l hl; simp at hl) (by intro h; exact absurd rfl h)
      (by simp [lineLen])
  · exact buildLoop_lines_bounded maxCharsPerLine hs words [] [] 0 0
      (by intro l hl; simp at hl) (by intro h; exact absurd rfl h)
      (by simp [lineLen])

/-- Concrete instance of `wrap_lines_within_budget`: wrapping
`["the", "quick"]` at budget 9 (where the separator over-count wraps after
`"the"`) keeps the line `["the"]` within 9 rendered characters. -/
theorem wrap_lines_within_budget_witness :
    lineLen (([(⟨"the".toList, 0⟩ : WordIdx)].map
      fun e => e.word.length)) ≤ 9 ∨
    ∃ e, [(⟨"the".toList, 0⟩ : WordIdx)] = [e] ∧ 9 < e.word.length :=
  (wrap_lines_within_budget ["the".toList, "quick".toList] [] 9
    (by decide)).1 [⟨"the".toList, 0⟩] (by decide)

theorem splitLoop_flatten (maxC : Nat) :
    ∀ (ws : List (List Char)) (idx : Nat) (lines : List (List WordIdx))
      (cur : List WordIdx) (len : Nat),
      ((splitLoop maxC ws idx lines cur len).flatten.map fun e => e.word) =
        (lines.flatten.map fun e => e.word) ++ (cur.map fun e => e.word)
          ++ ws := by
  intro ws
  induction ws with
  | nil =>
    intro idx lines cur len
    simp only [splitLoop]
    split
    · simp [List.flatten_append]
    · rename_i h
      have hnil : cur = [] := by
        rcases cur with _ | _
        · rfl
        · simp at h
      subst hnil
      simp
  | cons w ws ih =>
    intro idx lines cur len
    simp only [splitLoop]
    split
    · split
      · rw [ih]
        simp [List.map_append]
      · rw [ih]
        simp [List.flatten_append]
    · rename_i h
      have hnil : cur = [] := by
        rcases cur with _ | _
        · rfl
        · simp at h
      subst hnil
      split
      · rw [ih]
        simp
      · rw [ih]
        simp

theorem buildLoop_flatten (maxC : Nat) (hs : List Nat) :
    ∀ (ws : List (List Char)) (lines : List (List WEntry))
      (cur : List WEntry) (cnt gIdx : Nat),
      ((buildLoop maxC hs ws lines cur cnt gIdx).flatten.map fun e => e.word) =
        (lines.flatten.map fun e => e.word) ++ (cur.map fun e => e.word)
          ++ ws := by
  intro ws
  induction ws with
  | nil =>
    intro lines cur cnt gIdx
    simp only [buildLoop]
    split
    · simp [List.flatten_append]
    · rename_i h
      have hnil : cur = [] := by
        rcases cur with _ | _
        · rfl
        · simp at h
      subst hnil
      simp
  | cons w ws ih =>
    intro lines cur cnt gIdx
    simp only [buildLoop]
    split
    · split
      · rw [ih]
        simp [List.map_append]
      · rw [ih]
        simp [List.flatten_append]
    · rename_i h
      have hnil : cur = [] := by
        rcases cur with _ | _
        · rfl
        · simp at h
      subst hnil
      split
      · rw [ih]
        simp
      · rw [ih]
        simp

/-- C10: concatenating, in order, the words of the lines produced by either
greedy wrapping loop gives back exactly the input word list — wrapping never
drops, duplicates, or reorders a word. -/
theorem wrap_flatten_identity (words : List (List Char)) (hs : List Nat)
    (maxCharsPerLine : Nat) :
    ((splitWordsIntoLines words maxCharsPerLine).flatten.map
      fun e => e.word) = words ∧
    ((buildLines words hs maxCharsPerLine).flatten.map fun e => e.word)
      = words := by
  constructor
  · rw [splitWordsIntoLines, splitLoop_flatten]
    simp
  · rw [buildLines, buildLoop_flatten]
    simp

theorem buildLoop_highlight_flag (maxC : Nat) (hs : List Nat) :
    ∀ (ws : List (List Char)) (lines : List (List WEntry))
      (cur : List WEntry) (cnt gIdx : Nat),
      (∀ l ∈ lines, ∀ e ∈ l, e.highlight = hs.contains e.globalIndex) →
      (∀ e ∈ cur, e.highlight = hs.contains e.globalIndex) →
      ∀ l ∈ buildLoop maxC hs ws lines cur cnt gIdx,
        ∀ e ∈ l, e.highlight = hs.contains e.globalIndex := by
  intro ws
  induction ws with
  | nil =>
    intro lines cur cnt gIdx hlines hcur l hl
    simp only [buildLoop] at hl
    split at hl
    · rcases List.mem_append.1 hl with h | h
      · exact hlines l h
      · rw [List.mem_singleton] at h
        subst h
        exact hcur
    · exact hlines l hl
  | cons w ws ih =>
    intro lines cur cnt gIdx hlines hcur l hl
    simp only [buildLoop] at hl
    split at hl
    · split at hl
      · refine ih lines (cur ++ [⟨w, gIdx, hs.contains gIdx⟩]) _ _
          hlines ?_ l hl
        intro e he
        rcases List.mem_append.1 he with h | h
        · exact hcur e h
        · rw [List.mem_singleton] at h
          subst h
          rfl
      · rename_i hcl _
        have hne : cur ≠ [] := by
          intro hnil; rw [hnil] at hcl; simp at hcl
        refine ih (lines ++ [cur]) [⟨w, gIdx, hs.contains gIdx⟩] _ _ ?_ ?_
          l hl
        · intro l2 hl2
          rcases List.mem_append.1 hl2 with h | h
          · exact hlines l2 h
          · rw [List.mem_singleton] at h
            subst h
            exact hcur
        · intro e he
          rw [List.mem_singleton] at he
          subst he
          rfl
    · split at hl
      · refine ih lines (cur ++ [⟨w, gIdx, hs.contains gIdx⟩]) _ _
          hlines ?_ l hl
        intro e he
        rcases List.mem_append.1 he with h | h
        · exact hcur e h
        · rw [List.mem_singleton] at h
          subst h
          rfl
      · refine ih lines [⟨w, gIdx, hs.contains gIdx⟩] _ _ hlines ?_ l hl
        intro e he
        rw [List.mem_singleton] at he
        subst he
        rfl

/-- C3: the highlight-index set is exactly `{wordCount-2, wordCount-1}` for
the first transcript when `wordCount ≥ 2` and empty otherwise, exactly
`{0}` for the second transcript when `wordCount ≥ 1` and empty otherwise —
a function of word count and role only — and every word entry produced by
line building carries the highlight flag of its whole-block word index. -/
theorem highlight_selection (isFirstTranscript : Bool) (wordCount i : Nat) :
    ((highlightIndices isFirstTranscript wordCount).contains i = true ↔
      (isFirstTranscript = true ∧ 2 ≤ wordCount ∧
        (i = wordCount - 2 ∨ i = wordCount - 1)) ∨
      (isFirstTranscript = false ∧ 1 ≤ wordCount ∧ i = 0)) ∧
    (∀ (words : List (List Char)) (maxC : Nat),
      ∀ l ∈ buildLines words (highlightIndices isFirstTranscript wordCount)
        maxC, ∀ e ∈ l, e.highlight =
          (highlightIndices isFirstTranscript wordCount).contains
            e.globalIndex) := by
  constructor
  · cases isFirstTranscript with
    | true =>
      by_cases h2 : 2 ≤ wordCount
      · simp [highlightIndices, h2, List.contains_cons]
      · simp [highlightIndices, h2]
    | false =>
      by_cases h1 : 1 ≤ wordCount
      · simp [highlightIndices, h1, List.contains_cons]
      · simp [highlightIndices, h1]
  · intro words maxC
    exact buildLoop_highlight_flag maxC _ words [] [] 0 0
      (by intro l hl; simp at hl) (by intro e he; simp at he)

/-- Concrete instance of `highlight_selection`: in a one-word block for the
first transcript the built word entry is unhighlighted, matching the empty
highlight set. -/
theorem highlight_selection_witness :
    (⟨['a'], 0, false⟩ : WEntry).highlight =
      (highlightIndices true 1).contains 0 :=
  (highlight_selection true 1 0).2 [['a']] 22 [⟨['a'], 0, false⟩]
    (by decide) ⟨['a'], 0, false⟩ (by decide)

/-- C4: server.js `createGlowEffects` always produces exactly 4 draw
commands, the final command's font colour is the caller's input colour, and
all four commands carry the caller's position, font size, and enable window
verbatim. -/
theorem glow_expansion (text : List Char) (x y : String) (fontSize : Nat)
    (color fontFile : String) (enableExpr : Option String) :
    (createGlowEffects text x y fontSize color fontFile enableExpr).length
      = 4 ∧
    ((createGlowEffects text x y fontSize color fontFile enableExpr).map
      DrawCmd.fontcolor).getLast? = some color ∧
    (∀ c ∈ createGlowEffects text x y fontSize color fontFile enableExpr,
      c.x = x ∧ c.y = y ∧ c.fontsize = fontSize ∧ c.enable = enableExpr) := by
  refine ⟨rfl, rfl, ?_⟩
  intro c hc
  simp only [createGlowEffects, List.mem_cons, List.not_mem_nil,
    or_false] at hc
  rcases hc with rfl | rfl | rfl | rfl <;> exact ⟨rfl, rfl, rfl, rfl⟩

/-- Concrete instance of `glow_expansion`: the first glow command of a
one-character text keeps the position, size, and window verbatim. -/
theorem glow_expansion_witness :
    (⟨['h'], 80, "white@0.08", "(w-text_w)/2", "(h/2)", "f", 20,
      "white@0.05", some "lt(t,7.5)"⟩ : DrawCmd).x = "(w-text_w)/2" ∧
    (⟨['h'], 80, "white@0.08", "(w-text_w)/2", "(h/2)", "f", 20,
      "white@0.05", some "lt(t,7.5)"⟩ : DrawCmd).y = "(h/2)" ∧
    (⟨['h'], 80, "white@0.08", "(w-text_w)/2", "(h/2)", "f", 20,
      "white@0.05", some "lt(t,7.5)"⟩ : DrawCmd).fontsize = 80 ∧
    (⟨['h'], 80, "white@0.08", "(w-text_w)/2", "(h/2)", "f", 20,
      "white@0.05", some "lt(t,7.5)"⟩ : DrawCmd).enable = some "lt(t,7.5)" :=
  (glow_expansion ['h'] "(w-text_w)/2" "(h/2)" 80 "red" "f"
    (some "lt(t,7.5)")).2.2
    ⟨['h'], 80, "white@0.08", "(w-text_w)/2", "(h/2)", "f", 20,
      "white@0.05", some "lt(t,7.5)"⟩ (by decide)

/-! ### Helper lemmas about the transcript command templates -/

theorem mem_transcriptQuad {c : DrawCmd} {text : List Char} {fontSize : Nat}
    {x y fontFile glowColor mainColor enableExpr : String}
    (hc : c ∈ transcriptQuad text fontSize x y fontFile glowColor mainColor
      enableExpr) :
    c.text = text ∧ c.fontsize = fontSize ∧ c.x = x ∧ c.y = y ∧
    c.fontfile = fontFile ∧ c.enable = some enableExpr := by
  simp only [transcriptQuad, List.mem_cons, List.not_mem_nil,
    or_false] at hc
  rcases hc with rfl | rfl | rfl | rfl <;>
    exact ⟨rfl, rfl, rfl, rfl, rfl, rfl⟩

theorem mem_transcriptWordCmds {c : DrawCmd} {fontSize : Nat}
    {y fontFile fontColor highlightColor enableExpr : String}
    {line : List WEntry}
    (hc : c ∈ transcriptWordCmds fontSize y fontFile fontColor highlightColor
      enableExpr line) :
    c.fontsize = fontSize ∧ c.y = y ∧ c.fontfile = fontFile ∧
    c.enable = some enableExpr := by
  simp only [transcriptWordCmds, List.mem_flatten, List.mem_map] at hc
  obtain ⟨cl, ⟨p, _, rfl⟩, hcl⟩ := hc
  split at hcl
  · have h := mem_transcriptQuad hcl
    exact ⟨h.2.1, h.2.2.2.1, h.2.2.2.2.1, h.2.2.2.2.2⟩
  · simp at hcl

theorem mem_transcriptLineBlock {c : DrawCmd} {fontSize lineCount : Nat}
    {fontColor highlightColor fontFile enableExpr : String}
    {p : Nat × List WEntry}
    (hc : c ∈ transcriptLineBlock fontSize lineCount fontColor highlightColor
      fontFile enableExpr p) :
    c.y = yString (lineYOffset fontSize lineCount p.1) ∧
    c.fontsize = fontSize ∧ c.enable = some enableExpr := by
  simp only [transcriptLineBlock] at hc
  split at hc
  · have h := mem_transcriptWordCmds hc
    exact ⟨h.2.1, h.1, h.2.2.2⟩
  · have h := mem_transcriptQuad hc
    exact ⟨h.2.2.2.1, h.2.1, h.2.2.2.2.2⟩

theorem mem_transcriptToDrawText {c : DrawCmd}
    {transcript : Option (List Char)} {enableExpr : String} {isFirst : Bool}
    {fontSize : Nat} {fontColor highlightColor fontFile : String}
    (hc : c ∈ transcriptToDrawText transcript enableExpr isFirst fontSize
      fontColor highlightColor fontFile) :
    c.fontsize = fontSize ∧ c.enable = some enableExpr := by
  match transcript with
  | none => simp [transcriptToDrawText] at hc
  | some t =>
    simp only [transcriptToDrawText] at hc
    split at hc
    · simp at hc
    · split at hc
      · simp at hc
      · simp only [List.mem_flatten, List.mem_map] at hc
        obtain ⟨cl, ⟨p, _, rfl⟩, hcl⟩ := hc
        have h := mem_transcriptLineBlock hcl
        exact ⟨h.2.1, h.2.2⟩

theorem mem_createChannelNameDrawText {c : DrawCmd} {ch : List Char}
    {ff fc : String} (hc : c ∈ createChannelNameDrawText ch ff fc) :
    c.enable = none ∧ c.fontsize = 40 ∧ c.y = "(h/2)+400" := by
  simp only [createChannelNameDrawText, List.mem_cons, List.not_mem_nil,
    or_false] at hc
  rcases hc with rfl | rfl | rfl | rfl <;> exact ⟨rfl, rfl, rfl⟩

/-- C7: every command generated for the first caption block carries the
window `lt(t,7.5)`, every command for the second block carries
`gte(t,8.5)`, and every watermark command carries no enable window. -/
theorem enable_windows :
    (∀ (t : Option (List Char)) (fs : Nat) (fc hcol ff : String),
      ∀ c ∈ transcriptToDrawText t "lt(t,7.5)" true fs fc hcol ff,
        c.enable = some "lt(t,7.5)") ∧
    (∀ (t : Option (List Char)) (fs : Nat) (fc hcol ff : String),
      ∀ c ∈ transcriptToDrawText t "gte(t,8.5)" false fs fc hcol ff,
        c.enable = some "gte(t,8.5)") ∧
    (∀ (ch : List Char) (ff fc : String),
      ∀ c ∈ createChannelNameDrawText ch ff fc, c.enable = none) := by
  refine ⟨?_, ?_, ?_⟩
  · intro t fs fc hcol ff c hc
    exact (mem_transcriptToDrawText hc).2
  · intro t fs fc hcol ff c hc
    exact (mem_transcriptToDrawText hc).2
  · intro ch ff fc c hc
    exact (mem_createChannelNameDrawText hc).1

/-- Concrete instance of `enable_windows`: the first command of the first
block for caption `"hi"` carries the window `lt(t,7.5)`. -/
theorem enable_windows_witness :
    (⟨"hi".toList, 80, "white@0.08", "(w-tw)/2", "(h/2)-544", "f.ttf",
      20, "white@0.05", some "lt(t,7.5)"⟩ : DrawCmd).enable =
      some "lt(t,7.5)" :=
  enable_windows.1 (some "hi".toList) 80 "white" "#98FBCB" "f.ttf"
    ⟨"hi".toList, 80, "white@0.08", "(w-tw)/2", "(h/2)-544", "f.ttf",
      20, "white@0.05", some "lt(t,7.5)"⟩ (by decide)

theorem cleanPre_all_ws {t : List Char} (h : ∀ c ∈ t, isJsWs c = true) :
    ∀ c ∈ stripBrackets (commaToSpace (colonToSpace (stripQuotes t))),
      isJsWs c = true := by
  intro c hc
  unfold stripBrackets at hc
  rw [List.mem_filter] at hc
  obtain ⟨hc, _⟩ := hc
  unfold commaToSpace at hc
  rw [List.mem_map] at hc
  obtain ⟨a, ha, rfl⟩ := hc
  unfold colonToSpace at ha
  rw [List.mem_map] at ha
  obtain ⟨b, hb, rfl⟩ := ha
  unfold stripQuotes at hb
  rw [List.mem_filter] at hb
  have hbw := h b hb.1
  split
  · decide
  · split
    · decide
    · exact hbw

theorem cleanText_all_ws {t : List Char} (h : ∀ c ∈ t, isJsWs c = true) :
    cleanText t = [] := by
  unfold cleanText
  refine trim_eq_nil_of_all_ws ?_
  intro c hc
  rcases collapseWs_mem hc with rfl | ⟨hmem, hcws⟩
  · decide
  · exact absurd (cleanPre_all_ws h c hmem) (by simp [hcws])

theorem splitTextIntoLines_nil (maxC : Nat) :
    splitTextIntoLines [] maxC = [[⟨[], 0⟩]] := by
  unfold splitTextIntoLines splitWordsIntoLines splitOnChar
  simp [splitLoop]

theorem createHighlightedText_singleton_length (line : List WordIdx)
    (isF : Bool) (fs : Nat) (ff : String) (ex : Option String) :
    (createHighlightedText [line] isF fs ff ex).length = 4 := by
  simp [createHighlightedText, createGlowEffects]

/-- C5 counterexample: in server.js's `/combine` path a whitespace-only
caption is truthy, `cleanText` turns it into the empty string,
`splitTextIntoLines` wraps that into a single empty word, and
`createHighlightedText` still emits a full 4-command glow stack — the block
contributes 4 draw commands to the filter graph, not zero (18 is the
`maxCharsPerLine` of a 1080-wide frame at font size 80). -/
theorem blank_caption_counterexample :
    cleanText [' '] = [] ∧
    splitTextIntoLines (cleanText [' ']) 18 = [[⟨[], 0⟩]] ∧
    (createHighlightedText (splitTextIntoLines (cleanText [' ']) 18) true 80
      "f.ttf" (some "lt(t,7.5)")).length = 4 ∧
    createHighlightedText (splitTextIntoLines (cleanText [' ']) 18) true 80
      "f.ttf" (some "lt(t,7.5)") ≠ [] :=
  ⟨by decide, by decide, by decide, by decide⟩

/-- C5 amended: in the unnamed part's `transcriptToDrawText`, a missing
caption or one that is empty or all-whitespace contributes zero commands
(the embedded pipeline is total, so no error can be raised), and with both
captions absent the assembled `/process-video` command list is exactly the
watermark's 4 commands; in server.js's `/combine` path, however, an
all-whitespace caption cleans to the empty string yet still yields one
4-command glow stack (with empty text). -/
theorem blank_caption_contributes_nothing :
    (∀ (e : String) (isF : Bool) (fs : Nat) (fc hcol ff : String),
      transcriptToDrawText none e isF fs fc hcol ff = []) ∧
    (∀ (t : List Char) (e : String) (isF : Bool) (fs : Nat)
      (fc hcol ff : String), (∀ c ∈ t, isJsWs c = true) →
      transcriptToDrawText (some t) e isF fs fc hcol ff = []) ∧
    (∀ (ch : List Char) (fs : Nat) (fc hcol ff : String),
      processVideoCmds none none ch fs fc hcol ff =
        createChannelNameDrawText ch ff fc) ∧
    (∀ (ch : List Char) (ff fc : String),
      (createChannelNameDrawText ch ff fc).length = 4) ∧
    (∀ (t : List Char), (∀ c ∈ t, isJsWs c = true) →
      ∀ (maxC fs : Nat) (ff : String) (isF : Bool) (ex : Option String),
        (createHighlightedText (splitTextIntoLines (cleanText t) maxC) isF
          fs ff ex).length = 4) := by
  refine ⟨fun _ _ _ _ _ _ => rfl, ?_, fun _ _ _ _ _ => rfl,
    fun _ _ _ => rfl, ?_⟩
  · intro t e isF fs fc hcol ff hws
    by_cases ht : t = []
    · simp [transcriptToDrawText, ht]
    · have htrim : trim t = [] := trim_eq_nil_of_all_ws hws
      simp [transcriptToDrawText, ht, htrim, splitOnChar]
  · intro t hws maxC fs ff isF ex
    rw [cleanText_all_ws hws, splitTextIntoLines_nil]
    exact createHighlightedText_singleton_length _ _ _ _ _

/-- Concrete instance of `blank_caption_contributes_nothing`: a single-space
caption contributes no commands. -/
theorem blank_caption_contributes_nothing_witness :
    transcriptToDrawText (some [' ']) "lt(t,7.5)" true 80 "white" "#98FBCB"
      "f" = [] :=
  blank_caption_contributes_nothing.2.1 [' '] "lt(t,7.5)" true 80 "white"
    "#98FBCB" "f" (by decide)

/-! ### Helper lemmas about the exact rounding -/

theorem jsRound20_eq_jsRound (m : ℤ) : jsRound20 m = jsRound ((m : ℚ) / 20) := by
  unfold jsRound20 jsRound
  rw [show ((m : ℚ) / 20 + 1/2) = (((m + 10 : ℤ) : ℚ)) / ((20 : ℕ) : ℚ) by
    push_cast; ring]
  rw [Rat.floor_intCast_div_natCast]
  norm_num

theorem jsRound_add_intCast (q : ℚ) (n : ℤ) :
    jsRound (q + n) = jsRound q + n := by
  unfold jsRound
  rw [show q + n + 1/2 = q + 1/2 + (n : ℚ) by ring, Int.floor_add_int]

theorem jsRound_close (q : ℚ) : |(jsRound q : ℚ) - q| ≤ 1/2 := by
  unfold jsRound
  rw [abs_le]
  constructor
  · have h := Int.lt_floor_add_one (q + 1/2)
    linarith
  · have h := Int.floor_le (q + 1/2)
    linarith

/-- C6 counterexample: at font size 10 with one line, the code's vertical
offset is the integer −505 while the claim's formula gives −505.5, so the
position is not the formula's exact value; and in server.js the line-0 `y`
expression of a two-line 80px block is `(h/2)-400+0` — offset −400, not the
claimed −680 (its formula has no `totalHeight/2` term at all). -/
theorem line_vertical_center_counterexample :
    lineYOffset 10 1 0 = -505 ∧
    specLineCenterOffset (11/10) (-500) 10 1 0 = -1011/2 ∧
    ((-505 : ℚ) ≠ -1011/2) ∧
    serverLineY true 80 0 = "(h/2)-400+0" ∧
    specLineCenterOffset (7/2) (-400) 80 2 0 = -680 ∧
    ((-400 : ℚ) ≠ -680) := by
  refine ⟨by decide, ?_, by norm_num, by decide, ?_, by norm_num⟩
  · norm_num [specLineCenterOffset]
  · norm_num [specLineCenterOffset]

/-- C6 amended: in `transcriptToDrawText` the per-line vertical offset from
frame-middle equals the spec's centering formula
`baseVerticalOffset + i·lineHeight − totalHeight/2` rounded to the nearest
integer (half up) — hence within 1/2 of the formula — and every command of
the line block at index `i` carries exactly that offset in its `y`
expression; server.js's `createHighlightedText` instead renders
`baseY + i·lineHeight` with no `totalHeight/2` centering term. -/
theorem line_vertical_center_amended (fontSize lineCount lineIndex : Nat) :
    lineYOffset fontSize lineCount lineIndex =
      jsRound (specLineCenterOffset (11/10) (-500) fontSize lineCount
        lineIndex) ∧
    |(lineYOffset fontSize lineCount lineIndex : ℚ) -
      specLineCenterOffset (11/10) (-500) fontSize lineCount lineIndex|
      ≤ 1/2 ∧
    (∀ (fc hcol ff ex : String) (line : List WEntry),
      ∀ c ∈ transcriptLineBlock fontSize lineCount fc hcol ff ex
        (lineIndex, line),
        c.y = yString (lineYOffset fontSize lineCount lineIndex)) := by
  have key : lineYOffset fontSize lineCount lineIndex =
      jsRound (specLineCenterOffset (11/10) (-500) fontSize lineCount
        lineIndex) := by
    unfold lineYOffset
    rw [jsRound20_eq_jsRound]
    have hspec : specLineCenterOffset (11/10) (-500) fontSize lineCount
        lineIndex =
        ((22 * (lineIndex : ℤ) * (fontSize : ℤ)
          - 11 * (lineCount : ℤ) * (fontSize : ℤ) : ℤ) : ℚ) / 20
          + ((-500 : ℤ) : ℚ) := by
      unfold specLineCenterOffset
      push_cast
      ring
    rw [hspec, jsRound_add_intCast]
  refine ⟨key, ?_, ?_⟩
  · rw [key]
    exact jsRound_close _
  · intro fc hcol ff ex line c hcmem
    exact (mem_transcriptLineBlock hcmem).1

/-- Concrete instance of `line_vertical_center_amended`: the first command
of a one-line 80px block carries `y = (h/2)-544`, the rounded centering
offset. -/
theorem line_vertical_center_amended_witness :
    (⟨"hi".toList, 80, "white@0.08", "(w-tw)/2", "(h/2)-544", "f", 20,
      "white@0.05", some "lt(t,7.5)"⟩ : DrawCmd).y =
      yString (lineYOffset 80 1 0) :=
  (line_vertical_center_amended 80 1 0).2.2 "white" "#98FBCB" "f"
    "lt(t,7.5)" [⟨"hi".toList, 0, false⟩]
    ⟨"hi".toList, 80, "white@0.08", "(w-tw)/2", "(h/2)-544", "f", 20,
      "white@0.05", some "lt(t,7.5)"⟩ (by decide)

/-! ### Helper lemmas about survival of unlisted characters -/

theorem mem_trim_of_not_ws {c : Char} (hc : isJsWs c = false) {l : List Char}
    (h : c ∈ l) : c ∈ trim l := by
  unfold trim trimRight trimLeft
  rw [List.mem_reverse]
  refine mem_dropWhile_of_mem hc ?_
  rw [List.mem_reverse]
  exact mem_dropWhile_of_mem hc h

theorem bslash_mem_cleanPre {t : List Char} (h : bslash ∈ t) :
    bslash ∈ stripBrackets (commaToSpace (colonToSpace (stripQuotes t))) := by
  unfold stripBrackets
  refine List.mem_filter.2 ⟨?_, by decide⟩
  unfold commaToSpace
  refine List.mem_map.2 ⟨bslash, ?_, by decide⟩
  unfold colonToSpace
  refine List.mem_map.2 ⟨bslash, ?_, by decide⟩
  unfold stripQuotes
  exact List.mem_filter.2 ⟨h, by decide⟩

theorem bslash_mem_cleanText {t : List Char} (h : bslash ∈ t) :
    bslash ∈ cleanText t := by
  unfold cleanText
  exact mem_trim_of_not_ws (by decide)
    (mem_collapseWs_of_not_ws (by decide) (bslash_mem_cleanPre h))

theorem bslash_mem_cleanWordText {t : List Char} (h : bslash ∈ t) :
    bslash ∈ cleanWordText t := by
  unfold cleanWordText
  exact mem_trim_of_not_ws (by decide) (bslash_mem_cleanPre h)

theorem escapeSpecial_length : ∀ (t : List Char),
    t.length ≤ (escapeSpecial t).length ∧
    (bslash ∈ t → t.length < (escapeSpecial t).length) := by
  intro t
  induction t with
  | nil => simp [escapeSpecial]
  | cons c cs ih =>
    obtain ⟨ih1, ih2⟩ := ih
    rw [show escapeSpecial (c :: cs) = if c = bslash ∨ c = squote ∨ c = ':'
        then bslash :: c :: escapeSpecial cs else c :: escapeSpecial cs
      from rfl]
    split
    · refine ⟨?_, fun _ => ?_⟩ <;>
        · simp only [List.length_cons]
          omega
    · rename_i hno
      refine ⟨by simp only [List.length_cons]; omega, ?_⟩
      intro hmem
      rcases List.mem_cons.1 hmem with rfl | h'
      · exact absurd (Or.inl rfl) hno
      · have := ih2 h'
        simp only [List.length_cons]
        omega

/-- C8 counterexample: for the input consisting of a single backslash —
a character not in the sanitizer's replacement list — server.js's
`createGlowEffects` writes a doubled backslash into the text field of every
command (its `.replace(/[\\':]/g, '\\$&')` escaping pass), so the
character does not propagate unmodified there. -/
theorem unsanitized_propagation_counterexample :
    ((createGlowEffects [bslash] "(w-text_w)/2" "(h/2)" 80 "white" "f"
      none).map DrawCmd.text) =
      [[bslash, bslash], [bslash, bslash], [bslash, bslash],
        [bslash, bslash]] ∧
    ¬ (∀ c ∈ createGlowEffects [bslash] "(w-text_w)/2" "(h/2)" 80 "white"
      "f" none, c.text = [bslash]) :=
  ⟨by decide, by decide⟩

/-- C8 amended: a backslash survives both cleaning chains of the unnamed
part's transcript path unmodified (and indeed reaches the text field of
every generated command for a concrete backslash-bearing caption), while
server.js's `createGlowEffects` always modifies a text containing a
backslash by prefixing one more. -/
theorem unsanitized_propagation_amended :
    (∀ t : List Char, bslash ∈ t → bslash ∈ cleanText t) ∧
    (∀ t : List Char, bslash ∈ t → bslash ∈ cleanWordText t) ∧
    (∀ t : List Char, bslash ∈ t → escapeSpecial t ≠ t) ∧
    ((transcriptToDrawText (some ['a', bslash]) "lt(t,7.5)" true 80 "white"
      "#98FBCB" "f").map DrawCmd.text) =
      [['a', bslash], ['a', bslash], ['a', bslash], ['a', bslash]] := by
  refine ⟨fun t h => bslash_mem_cleanText h,
    fun t h => bslash_mem_cleanWordText h, ?_, by decide⟩
  intro t h heq
  have h2 := (escapeSpecial_length t).2 h
  rw [heq] at h2
  omega

/-- Concrete instance of `unsanitized_propagation_amended`: a backslash
survives `cleanText`. -/
theorem unsanitized_propagation_amended_witness :
    bslash ∈ cleanText [bslash] :=
  unsanitized_propagation_amended.1 [bslash] (by decide)

/-- C9: the filter-string generator is referentially transparent — two runs
on componentwise-identical inputs produce byte-identical output strings
(the embedding is a pure function of exactly these inputs, with no other
state). -/
theorem filter_string_deterministic
    (t1 t1' t2 t2' : Option (List Char)) (ch ch' : List Char)
    (fs fs' : Nat) (fc fc' hcol hcol' ff ff' : String)
    (h1 : t1 = t1') (h2 : t2 = t2') (h3 : ch = ch') (h4 : fs = fs')
    (h5 : fc = fc') (h6 : hcol = hcol') (h7 : ff = ff') :
    processVideoFilterString t1 t2 ch fs fc hcol ff =
      processVideoFilterString t1' t2' ch' fs' fc' hcol' ff' := by
  subst h1 h2 h3 h4 h5 h6 h7
  rfl

/-- Concrete instance of `filter_string_deterministic` at one input. -/
theorem filter_string_deterministic_witness :
    processVideoFilterString (some ['h', 'i']) none ['m'] 80 "white"
      "#98FBCB" "f" =
    processVideoFilterString (some ['h', 'i']) none ['m'] 80 "white"
      "#98FBCB" "f" :=
  filter_string_deterministic (some ['h', 'i']) (some ['h', 'i']) none none
    ['m'] ['m'] 80 80 "white" "white" "#98FBCB" "#98FBCB" "f" "f"
    rfl rfl rfl rfl rfl rfl rfl

end FfmpegApi
